import Mathlib

/-!
Shallow embedding of the core runes-indexing engine of the `ordx` crate
(`src/crates/ordx/src`): the per-transaction runestone state machine
(`updater.rs`), the block-end burn accrual (`RuneUpdater::update`), the
key-value store helpers and the reorg rewind (`db/mod.rs`), the mainnet
genesis bootstrap and the reorg backward walk (`main.rs`), and the
`mintable` predicate (`entry.rs`).

Machine integers (`u32`, `u64`, `u128`) are embedded as `Nat`; the `Lot`
wrapper around `u128` uses checked arithmetic that panics on overflow or
underflow, so its operations agree with `Nat` arithmetic on every
non-panicking execution, and at each place where the source subtracts we
prove the subtrahend does not exceed the minuend.  Byte-level varint
encoding lives in the external `ordinals` crate; a stored balance buffer
is embedded as the list of `(RuneId, amount)` pairs its decode loop
yields, in order.
-/

/-- `RuneId` from the `ordinals` crate: a `(block, tx)` coordinate.
`RuneId::default()` is `(0, 0)`. -/
structure RuneIdM where
  block : Nat
  tx : Nat
deriving DecidableEq, Repr

/-- `u64::MAX`, the saturation bound of `u64::saturating_add`. -/
def U64MAX : Nat := 2 ^ 64 - 1

/-- `u128::MAX`. -/
def U128MAX : Nat := 2 ^ 128 - 1

/-- `a.saturating_add b` on `u64`, embedded on `Nat`. -/
def satAdd64 (a b : Nat) : Nat := min (a + b) U64MAX

/-- `ordinals::Terms`: mint terms of a rune.  `height` and `offset` are
pairs of optional bounds; in the embedding the pairs are split into the
four named components. -/
structure TermsM where
  amount : Option Nat
  cap : Option Nat
  heightL : Option Nat
  heightU : Option Nat
  offsetL : Option Nat
  offsetU : Option Nat
deriving DecidableEq, Repr

/-- `entry.rs`: `RuneEntry`.  The `etching` txid is embedded as a `Nat`
stand-in for the 32-byte hash; `spaced_rune` keeps its `(rune, spacers)`
pair. -/
structure RuneEntryM where
  block : Nat
  burned : Nat
  divisibility : Nat
  etching : Nat
  mints : Nat
  number : Nat
  premine : Nat
  rune : Nat
  spacers : Nat
  symbol : Option Char
  terms : Option TermsM
  timestamp : Nat
  turbo : Bool
deriving DecidableEq, Repr

/-- `entry.rs`: `MintError`. -/
inductive MintErrorM where
  | capped (c : Nat)
  | ended (e : Nat)
  | notStarted (s : Nat)
  | unmintable
deriving DecidableEq, Repr

/-- `entry.rs`: `RuneEntry::start`.
`relative = offset.0.map(|o| block.saturating_add(o))`, `absolute =
height.0`, then `relative.zip(absolute).map(max).or(relative).or(absolute)`,
written out as a four-way match. -/
def RuneEntryM.mintStart (e : RuneEntryM) : Option Nat :=
  match e.terms with
  | none => none
  | some t =>
    match t.offsetL.map (fun o => satAdd64 e.block o), t.heightL with
    | some r, some a => some (max r a)
    | some r, none => some r
    | none, some a => some a
    | none, none => none

/-- `entry.rs`: `RuneEntry::end`, the `min` dual of `RuneEntry::start`
over `offset.1` and `height.1`. -/
def RuneEntryM.mintEnd (e : RuneEntryM) : Option Nat :=
  match e.terms with
  | none => none
  | some t =>
    match t.offsetU.map (fun o => satAdd64 e.block o), t.heightU with
    | some r, some a => some (min r a)
    | some r, none => some r
    | none, some a => some a
    | none, none => none

/-- `entry.rs`: `RuneEntry::mintable`. -/
def RuneEntryM.mintable (e : RuneEntryM) (height : Nat) :
    Except MintErrorM Nat :=
  match e.terms with
  | none => .error .unmintable
  | some t =>
    match e.mintStart with
    | some s =>
      if height < s then .error (.notStarted s)
      else
        match e.mintEnd with
        | some en =>
          if en ≤ height then .error (.ended en)
          else
            let cap := t.cap.getD 0
            if cap ≤ e.mints then .error (.capped cap)
            else .ok (t.amount.getD 0)
        | none =>
          let cap := t.cap.getD 0
          if cap ≤ e.mints then .error (.capped cap)
          else .ok (t.amount.getD 0)
    | none =>
      match e.mintEnd with
      | some en =>
        if en ≤ height then .error (.ended en)
        else
          let cap := t.cap.getD 0
          if cap ≤ e.mints then .error (.capped cap)
          else .ok (t.amount.getD 0)
      | none =>
        let cap := t.cap.getD 0
        if cap ≤ e.mints then .error (.capped cap)
        else .ok (t.amount.getD 0)

/-- Combine two optional bounds with `f`, keeping whichever side is
defined when only one is. -/
def optJoin (f : Nat → Nat → Nat) : Option Nat → Option Nat → Option Nat
  | some r, some a => some (f r a)
  | some r, none => some r
  | none, some a => some a
  | none, none => none

/-- The claim's `start`: `max(E.block + terms.offset.0, terms.height.0)`
taken over the defined components, with plain (non-saturating) addition. -/
def startOptSpec (e : RuneEntryM) (t : TermsM) : Option Nat :=
  optJoin max (t.offsetL.map (fun o => e.block + o)) t.heightL

/-- The claim's `end`: `min(E.block + terms.offset.1, terms.height.1)`
taken over the defined components, with plain (non-saturating) addition. -/
def endOptSpec (e : RuneEntryM) (t : TermsM) : Option Nat :=
  optJoin min (t.offsetU.map (fun o => e.block + o)) t.heightU

/-- The `mintable` predicate as the claim describes it: `Start(start)`
when `h < start`, `End(end)` when `h ≥ end`, `Cap(cap)` when
`mints ≥ cap` with `cap` defaulting to `0`, else `Ok` of the amount
defaulting to `0`. -/
def mintableSpec (e : RuneEntryM) (height : Nat) : Except MintErrorM Nat :=
  match e.terms with
  | none => .error .unmintable
  | some t =>
    if (startOptSpec e t).isSome ∧ height < (startOptSpec e t).getD 0 then
      .error (.notStarted ((startOptSpec e t).getD 0))
    else if (endOptSpec e t).isSome ∧ (endOptSpec e t).getD 0 ≤ height then
      .error (.ended ((endOptSpec e t).getD 0))
    else if t.cap.getD 0 ≤ e.mints then .error (.capped (t.cap.getD 0))
    else .ok (t.amount.getD 0)

theorem mintStart_eq_optJoin (e : RuneEntryM) (t : TermsM)
    (hterms : e.terms = some t)
    (hL : ∀ o, t.offsetL = some o → e.block + o ≤ U64MAX) :
    e.mintStart = startOptSpec e t := by
  unfold startOptSpec
  unfold RuneEntryM.mintStart
  rw [hterms]
  cases hoL : t.offsetL with
  | none => cases hhL : t.heightL <;> simp [optJoin, hoL, hhL]
  | some o =>
    have hsat : satAdd64 e.block o = e.block + o := by
      have := hL o hoL
      simp [satAdd64, Nat.min_eq_left this]
    cases hhL : t.heightL <;> simp [optJoin, hoL, hhL, hsat]

theorem mintEnd_eq_optJoin (e : RuneEntryM) (t : TermsM)
    (hterms : e.terms = some t)
    (hU : ∀ o, t.offsetU = some o → e.block + o ≤ U64MAX) :
    e.mintEnd = endOptSpec e t := by
  unfold endOptSpec
  unfold RuneEntryM.mintEnd
  rw [hterms]
  cases hoU : t.offsetU with
  | none => cases hhU : t.heightU <;> simp [optJoin, hoU, hhU]
  | some o =>
    have hsat : satAdd64 e.block o = e.block + o := by
      have := hU o hoU
      simp [satAdd64, Nat.min_eq_left this]
    cases hhU : t.heightU <;> simp [optJoin, hoU, hhU, hsat]

/-- `mintable` agrees with the claim description when the `u64`
saturating additions `block.saturating_add(offset)` do not saturate. -/
theorem mintable_eq_spec (e : RuneEntryM) (height : Nat)
    (hL : ∀ t o, e.terms = some t → t.offsetL = some o →
      e.block + o ≤ U64MAX)
    (hU : ∀ t o, e.terms = some t → t.offsetU = some o →
      e.block + o ≤ U64MAX) :
    e.mintable height = mintableSpec e height := by
  unfold RuneEntryM.mintable mintableSpec
  cases hterms : e.terms with
  | none => rfl
  | some t =>
    rw [mintStart_eq_optJoin e t hterms (fun o ho => hL t o hterms ho),
      mintEnd_eq_optJoin e t hterms (fun o ho => hU t o hterms ho)]
    cases hS : startOptSpec e t with
    | none =>
      cases hE : endOptSpec e t with
      | none => simp [hS, hE]
      | some en => simp [hS, hE]
    | some s =>
      cases hE : endOptSpec e t with
      | none => simp [hS, hE]
      | some en => simp [hS, hE]

/-- C7: `mintable` behaves exactly as specified: `Unmintable` without
terms, `Start(start)` below the start bound, `End(end)` at or above the
end bound, `Cap(cap)` once `mints` reaches the cap (default `0`), else
`Ok(amount)` (default `0`), with `start`/`end` the max/min over the
defined components of `block + offset` and `height`. -/
theorem mintable_matches_claim (e : RuneEntryM) (height : Nat)
    (hL : ∀ t o, e.terms = some t → t.offsetL = some o →
      e.block + o ≤ U64MAX)
    (hU : ∀ t o, e.terms = some t → t.offsetU = some o →
      e.block + o ≤ U64MAX) :
    e.mintable height = mintableSpec e height :=
  mintable_eq_spec e height hL hU

/-- A concrete rune entry exercising all `terms` components. -/
def mintableExampleEntry : RuneEntryM where
  block := 3
  burned := 0
  divisibility := 0
  etching := 0
  mints := 1
  number := 0
  premine := 0
  rune := 99246114928149462
  spacers := 0
  symbol := none
  terms := some
    { amount := some 100
      cap := some 10
      heightL := some 5
      heightU := some 20
      offsetL := some 2
      offsetU := some 8 }
  timestamp := 0
  turbo := false

theorem mintable_matches_claim_witness :
    mintableExampleEntry.mintable 12 = mintableSpec mintableExampleEntry 12 :=
  mintable_matches_claim mintableExampleEntry 12
    (by
      intro t o ht ho
      simp only [mintableExampleEntry, Option.some.injEq] at ht
      subst ht
      simp only [Option.some.injEq] at ho
      subst ho
      decide)
    (by
      intro t o ht ho
      simp only [mintableExampleEntry, Option.some.injEq] at ht
      subst ht
      simp only [Option.some.injEq] at ho
      subst ho
      decide)

/-! ## Association-list maps

The Rust code keeps balances in `HashMap`s and the stores in ordered
key-value column families.  Both are embedded as association lists with
first-match lookup; `lput` overwrites the first binding of a key (or
appends), matching both `HashMap::insert` and a RocksDB `put`, and
`ladd` is `*map.entry(k).or_default() += v`. -/

def lget {α β : Type} [DecidableEq α] : List (α × β) → α → Option β
  | [], _ => none
  | (k, v) :: rest, key => if k = key then some v else lget rest key

def lput {α β : Type} [DecidableEq α] : List (α × β) → α → β → List (α × β)
  | [], key, v => [(key, v)]
  | (k, w) :: rest, key, v =>
    if k = key then (k, v) :: rest else (k, w) :: lput rest key v

def ladd {α : Type} [DecidableEq α] (m : List (α × Nat)) (key : α)
    (v : Nat) : List (α × Nat) :=
  lput m key ((lget m key).getD 0 + v)

/-- Sum of all values of a map (duplicate keys would each count, but all
maps built by the embedding keep keys unique). -/
def msum {α : Type} (m : List (α × Nat)) : Nat := (m.map Prod.snd).sum

theorem lget_lput_self {α β : Type} [DecidableEq α]
    (m : List (α × β)) (k : α) (v : β) : lget (lput m k v) k = some v := by
  induction m with
  | nil => simp [lget, lput]
  | cons head rest ih =>
    obtain ⟨k0, v0⟩ := head
    by_cases h : k0 = k
    · subst h; simp [lget, lput]
    · simp [lget, lput, h, ih]

theorem lget_lput_ne {α β : Type} [DecidableEq α]
    (m : List (α × β)) (k k' : α) (v : β) (h : k ≠ k') :
    lget (lput m k v) k' = lget m k' := by
  induction m with
  | nil => simp [lget, lput, h]
  | cons head rest ih =>
    obtain ⟨k0, v0⟩ := head
    by_cases h0 : k0 = k
    · subst h0; simp [lget, lput, h]
    · simp only [lput, if_neg h0, lget]
      by_cases h1 : k0 = k'
      · simp [h1]
      · simp [h1, ih]

theorem msum_lput {α : Type} [DecidableEq α]
    (m : List (α × Nat)) (k : α) (v : Nat) :
    msum (lput m k v) + (lget m k).getD 0 = msum m + v := by
  induction m with
  | nil => simp [lput, lget, msum]
  | cons head rest ih =>
    obtain ⟨k0, v0⟩ := head
    by_cases h : k0 = k
    · subst h; simp [lput, lget, msum]; omega
    · simp only [lput, if_neg h, lget, msum, List.map_cons, List.sum_cons]
      simp only [msum] at ih
      omega

theorem msum_ladd {α : Type} [DecidableEq α]
    (m : List (α × Nat)) (k : α) (v : Nat) :
    msum (ladd m k v) = msum m + v := by
  have := msum_lput m k ((lget m k).getD 0 + v)
  unfold ladd
  omega

theorem lget_ladd_self {α : Type} [DecidableEq α]
    (m : List (α × Nat)) (k : α) (v : Nat) :
    lget (ladd m k v) k = some ((lget m k).getD 0 + v) :=
  lget_lput_self m k _

theorem lget_ladd_ne {α : Type} [DecidableEq α]
    (m : List (α × Nat)) (k k' : α) (v : Nat) (h : k ≠ k') :
    lget (ladd m k v) k' = lget m k' :=
  lget_lput_ne m k k' _ h

/-! ## Transaction model and edict processing (`updater.rs`, `index_runes`) -/

/-- A transaction output: whether its `script_pubkey` is OP_RETURN, and
its satoshi value. -/
structure TxOutM where
  opReturn : Bool
  value : Nat
deriving DecidableEq, Repr

/-- `ordinals::Edict`. -/
structure EdictM where
  id : RuneIdM
  amount : Nat
  output : Nat
deriving DecidableEq, Repr

/-- The parts of `ordinals::Etching` the state machine reads. -/
structure EtchingM where
  premine : Option Nat
deriving DecidableEq, Repr

/-- The parts of an `ordinals::Runestone` the state machine reads. -/
structure RunestoneM where
  edicts : List EdictM
  pointer : Option Nat
  mint : Option RuneIdM
  etching : Option EtchingM
deriving DecidableEq, Repr

/-- `ordinals::Artifact`: a well-formed `Runestone` or a `Cenotaph`.
Of a cenotaph the state machine reads only its `mint` field (via
`Artifact::mint`); its etching is handled through the `etched` pre-read. -/
inductive ArtifactM where
  | runestone (r : RunestoneM)
  | cenotaph (mint : Option RuneIdM)
deriving DecidableEq, Repr

/-- `Artifact::mint()`. -/
def ArtifactM.mintId : ArtifactM → Option RuneIdM
  | .runestone r => r.mint
  | .cenotaph m => m

/-- Rust's `Iterator::enumerate` starting at `n`. -/
def enumFromM {α : Type} : Nat → List α → List (Nat × α)
  | _, [] => []
  | n, a :: rest => (n, a) :: enumFromM (n + 1) rest

/-- Rust's `Iterator::enumerate`. -/
def enumM {α : Type} (l : List α) : List (Nat × α) := enumFromM 0 l

/-- `index_runes`: the non-OP_RETURN output indices, in ascending order
(`tx.output.iter().enumerate().filter_map(...)`). -/
def destinations (outs : List TxOutM) : List Nat :=
  (enumM outs).filterMap
    (fun p => if p.2.opReturn then none else some p.1)

/-- A per-output allocation table: one rune-id map per transaction
output (`vec![HashMap::new(); tx.output.len()]`). -/
abbrev AllocTable := List (List (RuneIdM × Nat))

/-- Total amount across every output's allocation map. -/
def allocSum (als : AllocTable) : Nat := (als.map msum).sum

/-- `*allocated[output].entry(id).or_default() += x`. -/
def bumpAt (als : AllocTable) (i : Nat) (id : RuneIdM) (x : Nat) :
    AllocTable :=
  als.set i (ladd (als.getD i []) id x)

/-- The `allocate` closure of `index_runes`: when `amount > 0`, move
`amount` from the borrowed unallocated balance into
`allocated[output][id]`.  `Lot` subtraction panics on underflow; every
call site passes `amount ≤ balance`, where `Nat` subtraction agrees. -/
def allocate (bal : Nat) (als : AllocTable) (id : RuneIdM)
    (amount output : Nat) : Nat × AllocTable :=
  if 0 < amount then (bal - amount, bumpAt als output id amount)
  else (bal, als)

/-- The `amount == 0` arm of the all-eligible edict: walk the enumerated
destinations, handing `q + 1` to the first `r` of them and `q` to the
rest, re-reading the decremented balance each step. -/
def splitLoop (id : RuneIdM) (q r : Nat) :
    List (Nat × Nat) → Nat → AllocTable → Nat × AllocTable
  | [], bal, als => (bal, als)
  | (i, out) :: rest, bal, als =>
    let p := allocate bal als id (if i < r then q + 1 else q) out
    splitLoop id q r rest p.1 p.2

/-- The `amount != 0` arm of the all-eligible edict: hand
`min(amount, balance)` to each eligible output in ascending order,
re-reading the decremented balance each step. -/
def distributeLoop (id : RuneIdM) (amount : Nat) :
    List Nat → Nat → AllocTable → Nat × AllocTable
  | [], bal, als => (bal, als)
  | out :: rest, bal, als =>
    let p := allocate bal als id (min amount bal) out
    distributeLoop id amount rest p.1 p.2

/-- One iteration of the edict loop of `index_runes`.  `none` is the
panic of `assert!(output <= tx.output.len())`; the id `(0, 0)` is
substituted by the id etched in this transaction, or the edict is
skipped; an id without unallocated balance is skipped. -/
def processEdict (outs : List TxOutM) (etched : Option RuneIdM)
    (st : List (RuneIdM × Nat) × AllocTable) (e : EdictM) :
    Option (List (RuneIdM × Nat) × AllocTable) :=
  if outs.length < e.output then none
  else
    match (if e.id = ⟨0, 0⟩ then etched else some e.id) with
    | none => some st
    | some id =>
      match lget st.1 id with
      | none => some st
      | some bal =>
        if e.output = outs.length then
          if (destinations outs).isEmpty then some st
          else if e.amount = 0 then
            some (lput st.1 id
                (splitLoop id (bal / (destinations outs).length)
                  (bal % (destinations outs).length)
                  (enumM (destinations outs)) bal st.2).1,
              (splitLoop id (bal / (destinations outs).length)
                (bal % (destinations outs).length)
                (enumM (destinations outs)) bal st.2).2)
          else
            some (lput st.1 id
                (distributeLoop id e.amount (destinations outs) bal st.2).1,
              (distributeLoop id e.amount (destinations outs) bal st.2).2)
        else
          some (lput st.1 id
              (allocate bal st.2 id
                (if e.amount = 0 then bal else min e.amount bal) e.output).1,
            (allocate bal st.2 id
              (if e.amount = 0 then bal else min e.amount bal) e.output).2)

/-- The whole edict loop, short-circuiting on the assert panic. -/
def processEdicts (outs : List TxOutM) (etched : Option RuneIdM)
    (edicts : List EdictM) (st : List (RuneIdM × Nat) × AllocTable) :
    Option (List (RuneIdM × Nat) × AllocTable) :=
  match edicts with
  | [] => some st
  | e :: rest =>
    match processEdict outs etched st e with
    | none => none
    | some st1 => processEdicts outs etched rest st1

/-! ## Residual assignment, write-out, and the whole of `index_runes` -/

/-- `tx.output.iter().enumerate().find(|(_, o)| !o.is_op_return()).map(|(v, _)| v)`. -/
def firstNonOpReturn (outs : List TxOutM) : Option Nat :=
  ((enumM outs).find? (fun p => !p.2.opReturn)).map Prod.fst

/-- The residual credit loop: every positive unallocated balance goes to
output `p`. -/
def creditLoop (p : Nat) (u : List (RuneIdM × Nat)) (als : AllocTable) :
    AllocTable :=
  u.foldl (fun als e => if 0 < e.2 then bumpAt als p e.1 e.2 else als) als

/-- The residual burn loop (no output can receive the residual): every
positive unallocated balance is added to the burn map and the `burn` tag
is raised. -/
def burnLoop (u : List (RuneIdM × Nat)) (st : List (RuneIdM × Nat) × Bool) :
    List (RuneIdM × Nat) × Bool :=
  u.foldl
    (fun st e => if 0 < e.2 then (ladd st.1 e.1 e.2, true) else st) st

/-- The cenotaph burn loop: every unallocated balance is folded into the
burn map (zero balances included), the `cenotaph` tag is raised when any
balance is positive. -/
def cenotaphBurnLoop (u : List (RuneIdM × Nat))
    (st : List (RuneIdM × Nat) × Bool) : List (RuneIdM × Nat) × Bool :=
  u.foldl (fun st e => (ladd st.1 e.1 e.2, if 0 < e.2 then true else st.2)) st

/-- `index_runes` lines 159–197 (the non-cenotaph residual assignment):
a present pointer is asserted to be a valid index of `allocated`
(`none` embeds that panic) and receives every positive residual; an
absent pointer falls back to the first non-OP_RETURN output; with no
such output the residual is burned and the transaction tagged `burn`.
The per-transaction burn map is empty when this step runs.  Returns
`(allocated, burned, burn-tag)`. -/
def applyResidual (outs : List TxOutM) (pointer : Option Nat)
    (u : List (RuneIdM × Nat)) (als : AllocTable) :
    Option (AllocTable × List (RuneIdM × Nat) × Bool) :=
  match pointer with
  | some p =>
    if p < als.length then some (creditLoop p u als, [], false)
    else none
  | none =>
    match firstNonOpReturn outs with
    | some v => some (creditLoop v u als, [], false)
    | none =>
      some (als, (burnLoop u ([], false)).1, (burnLoop u ([], false)).2)

/-- Order on `(RuneId, Lot)` pairs used by `balances.sort()`:
lexicographic on `(id.block, id.tx, amount)`. -/
def pairLeM (a b : RuneIdM × Nat) : Bool :=
  if a.1.block < b.1.block then true
  else if b.1.block < a.1.block then false
  else if a.1.tx < b.1.tx then true
  else if b.1.tx < a.1.tx then false
  else decide (a.2 ≤ b.2)

def insertSorted (x : RuneIdM × Nat) :
    List (RuneIdM × Nat) → List (RuneIdM × Nat)
  | [] => [x]
  | y :: rest =>
    if pairLeM x y then x :: y :: rest else y :: insertSorted x rest

/-- `balances.sort()` (insertion sort; only the ordering matters). -/
def sortBalances : List (RuneIdM × Nat) → List (RuneIdM × Nat)
  | [] => []
  | x :: rest => insertSorted x (sortBalances rest)

/-- One stored `OUTPOINT_TO_RUNE_BALANCES` row as `index_runes` writes
it at line 262: `(self.height, 0, buffer)` — confirmed height, spent
height `0`, and the sorted balance list; no satoshi value and no
script bytes. -/
structure TxRecord where
  vout : Nat
  confirmedHeight : Nat
  spentHeight : Nat
  balances : List (RuneIdM × Nat)
deriving DecidableEq, Repr

/-- `index_runes` lines 199–264 (write-out): per enumerated output,
skip empty allocations, fold OP_RETURN allocations into the burn map,
otherwise emit the `(H, 0, sorted balances)` record. -/
def writeOutLoop (H : Nat) (outs : List TxOutM) :
    List (Nat × List (RuneIdM × Nat)) → List (RuneIdM × Nat) →
    List TxRecord × List (RuneIdM × Nat)
  | [], burned => ([], burned)
  | (vout, m) :: rest, burned =>
    if m.isEmpty then writeOutLoop H outs rest burned
    else if (outs.getD vout ⟨true, 0⟩).opReturn then
      writeOutLoop H outs rest (m.foldl (fun bm e => ladd bm e.1 e.2) burned)
    else
      ((⟨vout, H, 0, sortBalances m⟩ : TxRecord)
          :: (writeOutLoop H outs rest burned).1,
        (writeOutLoop H outs rest burned).2)

/-- The observable outcome of `index_runes` on one transaction: the
rows written to `OUTPOINT_TO_RUNE_BALANCES`, the per-transaction burn
map folded into the block's `self.burned`, and the `burn` / `cenotaph`
transaction tags. -/
structure IndexOutcome where
  written : List TxRecord
  burned : List (RuneIdM × Nat)
  taggedBurn : Bool
  taggedCenotaph : Bool
deriving DecidableEq, Repr

/-- `index_runes` lines 50–55: add the successfully minted amount to
the unallocated pool.  `mintOut id` is the pre-read result of
`self.mint` (the per-mint amount when the rune entry exists and
`mintable` accepts, `None` otherwise). -/
def mintPhase (artifact : Option ArtifactM) (mintOut : RuneIdM → Option Nat)
    (inputs : List (RuneIdM × Nat)) : List (RuneIdM × Nat) :=
  match artifact with
  | some a =>
    match a.mintId with
    | some id =>
      match mintOut id with
      | some amt => ladd inputs id amt
      | none => inputs
    | none => inputs
  | none => inputs

/-- `index_runes` lines 59–139: for a runestone whose etching was
accepted, credit the premine (`runestone.etching.unwrap().premine`,
`none` embeds the `unwrap` panic when the etching field is absent) and
run the edict loop; any other artifact leaves the pool untouched.
`allocated` starts as `vec![HashMap::new(); tx.output.len()]`. -/
def edictPhase (outs : List TxOutM) (artifact : Option ArtifactM)
    (etched : Option RuneIdM) (u1 : List (RuneIdM × Nat)) :
    Option (List (RuneIdM × Nat) × AllocTable) :=
  match artifact with
  | some (.runestone r) =>
    match etched with
    | some id =>
      match r.etching with
      | some et =>
        processEdicts outs etched r.edicts
          (ladd u1 id (et.premine.getD 0), List.replicate outs.length [])
      | none => none
    | none =>
      processEdicts outs etched r.edicts
        (u1, List.replicate outs.length [])
  | _ => some (u1, List.replicate outs.length [])

/-- `RuneUpdater::index_runes` over one transaction, pure over its
pre-reads: `inputs` is the concatenation of the decoded balance lists of
the spent outpoints (see `unallocatedPhase`), `mintOut id` the result of
`self.mint`, and `etched` the id assigned by `self.etched` when the
etching is accepted.  `none` is a panic: an edict whose output exceeds
`tx.output.len()`, a pointer outside the outputs, or an accepted etch
without an etching field. -/
def indexRunes (H : Nat) (outs : List TxOutM) (artifact : Option ArtifactM)
    (inputs : List (RuneIdM × Nat)) (mintOut : RuneIdM → Option Nat)
    (etched : Option RuneIdM) : Option IndexOutcome :=
  match edictPhase outs artifact etched (mintPhase artifact mintOut inputs)
    with
  | none => none
  | some (u2, als) =>
    match artifact with
    | some (.cenotaph _) =>
      some ⟨(writeOutLoop H outs (enumM als)
              (cenotaphBurnLoop u2 ([], false)).1).1,
        (writeOutLoop H outs (enumM als)
          (cenotaphBurnLoop u2 ([], false)).1).2,
        false, (cenotaphBurnLoop u2 ([], false)).2⟩
    | some (.runestone r) =>
      match applyResidual outs r.pointer u2 als with
      | none => none
      | some (als2, b1, tag) =>
        some ⟨(writeOutLoop H outs (enumM als2) b1).1,
          (writeOutLoop H outs (enumM als2) b1).2, tag, false⟩
    | none =>
      match applyResidual outs none u2 als with
      | none => none
      | some (als2, b1, tag) =>
        some ⟨(writeOutLoop H outs (enumM als2) b1).1,
          (writeOutLoop H outs (enumM als2) b1).2, tag, false⟩

/-- The mint amount `index_runes` adds to the unallocated pool: present
exactly when the artifact declares a mint id and `self.mint` accepts. -/
def mintContribution (artifact : Option ArtifactM)
    (mintOut : RuneIdM → Option Nat) : Nat :=
  match artifact with
  | some a =>
    match a.mintId with
    | some id => (mintOut id).getD 0
    | none => 0
  | none => 0

/-- The premine `index_runes` adds to the unallocated pool: present
exactly when a runestone's etching was accepted. -/
def premineContribution (artifact : Option ArtifactM)
    (etched : Option RuneIdM) : Nat :=
  match artifact, etched with
  | some (.runestone r), some _ =>
    match r.etching with
    | some et => et.premine.getD 0
    | none => 0
  | _, _ => 0

/-! ## Conservation lemmas -/

theorem allocSum_cons (m : List (RuneIdM × Nat)) (als : AllocTable) :
    allocSum (m :: als) = msum m + allocSum als := by
  simp [allocSum]

theorem bumpAt_length (als : AllocTable) (i : Nat) (id : RuneIdM)
    (x : Nat) : (bumpAt als i id x).length = als.length := by
  simp [bumpAt]

theorem allocSum_bumpAt (als : AllocTable) (i : Nat) (id : RuneIdM)
    (x : Nat) (h : i < als.length) :
    allocSum (bumpAt als i id x) = allocSum als + x := by
  induction als generalizing i with
  | nil => simp at h
  | cons m rest ih =>
    cases i with
    | zero =>
      simp only [bumpAt, List.getD_cons_zero, List.set_cons_zero,
        allocSum_cons, msum_ladd]
      omega
    | succ i =>
      have h' : i < rest.length := by simpa using h
      have := ih i h'
      simp only [bumpAt] at this
      simp only [bumpAt, List.getD_cons_succ, List.set_cons_succ,
        allocSum_cons, this]
      omega

theorem allocate_fst (bal : Nat) (als : AllocTable) (id : RuneIdM)
    (amount output : Nat) :
    (allocate bal als id amount output).1 = bal - amount := by
  unfold allocate
  split
  · rfl
  · omega

theorem allocate_length (bal : Nat) (als : AllocTable) (id : RuneIdM)
    (amount output : Nat) :
    (allocate bal als id amount output).2.length = als.length := by
  unfold allocate
  split <;> simp [bumpAt]

theorem allocate_conserve (bal : Nat) (als : AllocTable) (id : RuneIdM)
    (amount output : Nat) (hle : amount ≤ bal)
    (hout : output < als.length) :
    (allocate bal als id amount output).1
        + allocSum (allocate bal als id amount output).2
      = bal + allocSum als := by
  unfold allocate
  split
  · simp only [allocSum_bumpAt als output id amount hout]
    omega
  · rfl

theorem splitLoop_conserve (id : RuneIdM) (q r : Nat) :
    ∀ (ps : List (Nat × Nat)) (bal : Nat) (als : AllocTable),
    (∀ p ∈ ps, p.2 < als.length) →
    (ps.map (fun p => if p.1 < r then q + 1 else q)).sum ≤ bal →
    (splitLoop id q r ps bal als).1
        + allocSum (splitLoop id q r ps bal als).2
      = bal + allocSum als
    ∧ (splitLoop id q r ps bal als).2.length = als.length := by
  intro ps
  induction ps with
  | nil => intro bal als _ _; exact ⟨rfl, rfl⟩
  | cons p rest ih =>
    intro bal als hout hsum
    obtain ⟨i, out⟩ := p
    simp only [List.map_cons, List.sum_cons] at hsum
    have hamt_le : (if i < r then q + 1 else q) ≤ bal := by omega
    have h1 := allocate_conserve bal als id (if i < r then q + 1 else q)
      out hamt_le (hout (i, out) (by simp))
    have hfst := allocate_fst bal als id (if i < r then q + 1 else q) out
    have hlen := allocate_length bal als id (if i < r then q + 1 else q) out
    have hrest := ih (allocate bal als id (if i < r then q + 1 else q) out).1
      (allocate bal als id (if i < r then q + 1 else q) out).2
      (fun p hp => by rw [hlen]; exact hout p (List.mem_cons_of_mem _ hp))
      (by rw [hfst]; omega)
    simp only [splitLoop]
    refine ⟨?_, ?_⟩
    · rw [hrest.1]; omega
    · rw [hrest.2, hlen]

theorem distributeLoop_conserve (id : RuneIdM) (amount : Nat) :
    ∀ (ds : List Nat) (bal : Nat) (als : AllocTable),
    (∀ d ∈ ds, d < als.length) →
    (distributeLoop id amount ds bal als).1
        + allocSum (distributeLoop id amount ds bal als).2
      = bal + allocSum als
    ∧ (distributeLoop id amount ds bal als).2.length = als.length := by
  intro ds
  induction ds with
  | nil => intro bal als _; exact ⟨rfl, rfl⟩
  | cons d rest ih =>
    intro bal als hout
    have h1 := allocate_conserve bal als id (min amount bal) d
      (Nat.min_le_right _ _) (hout d (by simp))
    have hlen := allocate_length bal als id (min amount bal) d
    have hrest := ih (allocate bal als id (min amount bal) d).1
      (allocate bal als id (min amount bal) d).2
      (fun p hp => by rw [hlen]; exact hout p (List.mem_cons_of_mem _ hp))
    simp only [distributeLoop]
    refine ⟨?_, ?_⟩
    · rw [hrest.1]; omega
    · rw [hrest.2, hlen]

theorem enumFromM_mem_bounds {α : Type} (l : List α) :
    ∀ (n : Nat) (p : Nat × α), p ∈ enumFromM n l →
      n ≤ p.1 ∧ p.1 < n + l.length := by
  induction l with
  | nil => intro n p hp; simp [enumFromM] at hp
  | cons a rest ih =>
    intro n p hp
    simp only [enumFromM, List.mem_cons] at hp
    cases hp with
    | inl h =>
      subst h
      show n ≤ n ∧ n < n + (a :: rest).length
      simp only [List.length_cons]
      omega
    | inr h =>
      have := ih (n + 1) p h
      simp only [List.length_cons]
      omega

theorem enumFromM_mem_snd {α : Type} (l : List α) :
    ∀ (n : Nat) (p : Nat × α), p ∈ enumFromM n l → p.2 ∈ l := by
  induction l with
  | nil => intro n p hp; simp [enumFromM] at hp
  | cons a rest ih =>
    intro n p hp
    simp only [enumFromM, List.mem_cons] at hp
    cases hp with
    | inl h => subst h; simp
    | inr h => exact List.mem_cons_of_mem _ (ih (n + 1) p h)

theorem destinations_lt (outs : List TxOutM) :
    ∀ x ∈ destinations outs, x < outs.length := by
  intro x hx
  simp only [destinations, List.mem_filterMap] at hx
  obtain ⟨p, hp, hfx⟩ := hx
  have hb := enumFromM_mem_bounds outs 0 p hp
  split at hfx
  · exact absurd hfx (by simp)
  · simp only [Option.some.injEq] at hfx
    omega

theorem enum_splitPlan_sum_ge {α : Type} (l : List α) (q r : Nat) :
    ∀ n, r ≤ n →
    ((enumFromM n l).map (fun p => if p.1 < r then q + 1 else q)).sum
      = l.length * q := by
  induction l with
  | nil => intro n _; simp [enumFromM]
  | cons a rest ih =>
    intro n hn
    simp only [enumFromM, List.map_cons, List.sum_cons, List.length_cons]
    rw [ih (n + 1) (by omega), if_neg (by omega), Nat.succ_mul]
    omega

theorem enum_splitPlan_sum_le {α : Type} (l : List α) (q r : Nat) :
    ∀ n, n ≤ r → r ≤ n + l.length →
    ((enumFromM n l).map (fun p => if p.1 < r then q + 1 else q)).sum
      = l.length * q + (r - n) := by
  induction l with
  | nil =>
    intro n h1 h2
    simp only [List.length_nil, Nat.add_zero] at h2
    simp [enumFromM]
    omega
  | cons a rest ih =>
    intro n h1 h2
    simp only [List.length_cons] at h2
    simp only [enumFromM, List.map_cons, List.sum_cons, List.length_cons]
    by_cases hn : n < r
    · rw [if_pos hn, ih (n + 1) (by omega) (by omega), Nat.succ_mul]
      omega
    · rw [if_neg hn, enum_splitPlan_sum_ge rest q r (n + 1) (by omega),
        Nat.succ_mul]
      omega

theorem processEdict_conserve (outs : List TxOutM)
    (etched : Option RuneIdM) (u : List (RuneIdM × Nat))
    (als : AllocTable) (e : EdictM) (hlen : als.length = outs.length)
    (u' : List (RuneIdM × Nat)) (als' : AllocTable)
    (h : processEdict outs etched (u, als) e = some (u', als')) :
    msum u' + allocSum als' = msum u + allocSum als
      ∧ als'.length = als.length := by
  unfold processEdict at h
  dsimp only at h
  split at h
  · exact absurd h (by simp)
  · rename_i houtb
    split at h
    · -- no id to substitute: the edict is skipped
      simp only [Option.some.injEq, Prod.mk.injEq] at h
      obtain ⟨h1, h2⟩ := h
      subst h1; subst h2
      exact ⟨rfl, rfl⟩
    · rename_i id hid
      split at h
      · -- no unallocated balance for the id: skipped
        simp only [Option.some.injEq, Prod.mk.injEq] at h
        obtain ⟨h1, h2⟩ := h
        subst h1; subst h2
        exact ⟨rfl, rfl⟩
      · rename_i bal hbal
        split at h
        · -- case A: output == tx.output.len()
          rename_i hAll
          split at h
          · -- destinations empty: no effect
            simp only [Option.some.injEq, Prod.mk.injEq] at h
            obtain ⟨h1, h2⟩ := h
            subst h1; subst h2
            exact ⟨rfl, rfl⟩
          · rename_i hne
            have hd : 0 < (destinations outs).length := by
              cases hds : destinations outs with
              | nil => rw [hds] at hne; simp at hne
              | cons a l => simp
            split at h
            · -- amount == 0: even split
              rename_i hamt0
              have hplan : ((enumM (destinations outs)).map
                  (fun p => if p.1 < bal % (destinations outs).length
                    then bal / (destinations outs).length + 1
                    else bal / (destinations outs).length)).sum = bal := by
                unfold enumM
                rw [enum_splitPlan_sum_le (destinations outs)
                  (bal / (destinations outs).length)
                  (bal % (destinations outs).length) 0 (by omega)
                  (by simpa using Nat.le_of_lt (Nat.mod_lt bal hd))]
                have := Nat.div_add_mod bal (destinations outs).length
                omega
              have hsplit := splitLoop_conserve id
                (bal / (destinations outs).length)
                (bal % (destinations outs).length)
                (enumM (destinations outs)) bal als
                (fun p hp => by
                  rw [hlen]
                  exact destinations_lt outs p.2
                    (enumFromM_mem_snd (destinations outs) 0 p hp))
                (by rw [hplan])
              simp only [Option.some.injEq, Prod.mk.injEq] at h
              obtain ⟨h1, h2⟩ := h
              subst h1; subst h2
              have hmap := msum_lput u id
                ((splitLoop id (bal / (destinations outs).length)
                  (bal % (destinations outs).length)
                  (enumM (destinations outs)) bal als).1)
              rw [hbal] at hmap
              simp only [Option.getD_some] at hmap
              exact ⟨by omega, hsplit.2⟩
            · -- amount != 0: distribute min(amount, balance)
              have hdist := distributeLoop_conserve id e.amount
                (destinations outs) bal als
                (fun d hd2 => by rw [hlen]; exact destinations_lt outs d hd2)
              simp only [Option.some.injEq, Prod.mk.injEq] at h
              obtain ⟨h1, h2⟩ := h
              subst h1; subst h2
              have hmap := msum_lput u id
                ((distributeLoop id e.amount (destinations outs) bal als).1)
              rw [hbal] at hmap
              simp only [Option.getD_some] at hmap
              exact ⟨by omega, hdist.2⟩
        · -- case B: a single concrete output
          rename_i hAll
          have hlt : e.output < als.length := by
            rw [hlen]; omega
          have halloc := allocate_conserve bal als id
            (if e.amount = 0 then bal else min e.amount bal) e.output
            (by split
                · exact Nat.le_refl bal
                · exact Nat.min_le_right _ _) hlt
          have hlen2 := allocate_length bal als id
            (if e.amount = 0 then bal else min e.amount bal) e.output
          simp only [Option.some.injEq, Prod.mk.injEq] at h
          obtain ⟨h1, h2⟩ := h
          subst h1; subst h2
          have hmap := msum_lput u id
            ((allocate bal als id
              (if e.amount = 0 then bal else min e.amount bal) e.output).1)
          rw [hbal] at hmap
          simp only [Option.getD_some] at hmap
          exact ⟨by omega, hlen2⟩

theorem processEdicts_conserve (outs : List TxOutM)
    (etched : Option RuneIdM) :
    ∀ (edicts : List EdictM) (u : List (RuneIdM × Nat))
      (als : AllocTable), als.length = outs.length →
    ∀ u' als', processEdicts outs etched edicts (u, als) = some (u', als') →
      msum u' + allocSum als' = msum u + allocSum als
        ∧ als'.length = als.length := by
  intro edicts
  induction edicts with
  | nil =>
    intro u als _ u' als' h
    simp only [processEdicts, Option.some.injEq, Prod.mk.injEq] at h
    obtain ⟨h1, h2⟩ := h
    subst h1; subst h2
    exact ⟨rfl, rfl⟩
  | cons e rest ih =>
    intro u als hlen u' als' h
    simp only [processEdicts] at h
    split at h
    · exact absurd h (by simp)
    · rename_i st1 hst1
      obtain ⟨u1, als1⟩ := st1
      have h1 := processEdict_conserve outs etched u als e hlen u1 als1 hst1
      have h2 := ih u1 als1 (h1.2.trans hlen) u' als' h
      exact ⟨by omega, h2.2.trans h1.2⟩

theorem creditLoop_conserve (p : Nat) :
    ∀ (u : List (RuneIdM × Nat)) (als : AllocTable), p < als.length →
    allocSum (creditLoop p u als) = allocSum als + msum u
      ∧ (creditLoop p u als).length = als.length := by
  intro u
  induction u with
  | nil => intro als _; simp [creditLoop, msum]
  | cons e rest ih =>
    intro als hp
    obtain ⟨id, b⟩ := e
    simp only [creditLoop, List.foldl_cons]
    by_cases hb : 0 < b
    · rw [if_pos hb]
      have h1 := allocSum_bumpAt als p id b hp
      have h2 := ih (bumpAt als p id b) (by rw [bumpAt_length]; exact hp)
      simp only [creditLoop] at h2
      refine ⟨?_, ?_⟩
      · rw [h2.1, h1]; simp [msum]; omega
      · rw [h2.2, bumpAt_length]
    · rw [if_neg hb]
      have h2 := ih als hp
      simp only [creditLoop] at h2
      refine ⟨?_, h2.2⟩
      rw [h2.1]
      have : b = 0 := by omega
      simp [msum, this]

theorem burnLoop_conserve :
    ∀ (u : List (RuneIdM × Nat)) (bm : List (RuneIdM × Nat)) (fl : Bool),
    msum (burnLoop u (bm, fl)).1 = msum bm + msum u
      ∧ (burnLoop u (bm, fl)).2
          = (fl || u.any (fun e => decide (0 < e.2))) := by
  intro u
  induction u with
  | nil => intro bm fl; simp [burnLoop, msum]
  | cons e rest ih =>
    intro bm fl
    obtain ⟨id, b⟩ := e
    simp only [burnLoop, List.foldl_cons]
    by_cases hb : 0 < b
    · rw [if_pos hb]
      have h2 := ih (ladd bm id b) true
      simp only [burnLoop] at h2
      refine ⟨?_, ?_⟩
      · rw [h2.1, msum_ladd]; simp [msum]; omega
      · rw [h2.2]; simp [hb]
    · rw [if_neg hb]
      have h2 := ih bm fl
      simp only [burnLoop] at h2
      refine ⟨?_, ?_⟩
      · rw [h2.1]
        have : b = 0 := by omega
        simp [msum, this]
      · rw [h2.2]
        have : ¬ (0 < b) := hb
        simp [this]

theorem cenotaphBurnLoop_conserve :
    ∀ (u : List (RuneIdM × Nat)) (bm : List (RuneIdM × Nat)) (fl : Bool),
    msum (cenotaphBurnLoop u (bm, fl)).1 = msum bm + msum u
      ∧ (cenotaphBurnLoop u (bm, fl)).2
          = (fl || u.any (fun e => decide (0 < e.2))) := by
  intro u
  induction u with
  | nil => intro bm fl; simp [cenotaphBurnLoop, msum]
  | cons e rest ih =>
    intro bm fl
    obtain ⟨id, b⟩ := e
    simp only [cenotaphBurnLoop, List.foldl_cons]
    have h2 := ih (ladd bm id b) (if 0 < b then true else fl)
    simp only [cenotaphBurnLoop] at h2
    refine ⟨?_, ?_⟩
    · rw [h2.1, msum_ladd]; simp [msum]; omega
    · rw [h2.2]
      by_cases hb : 0 < b
      · simp [hb]
      · have : b = 0 := by omega
        simp [this]

theorem firstNonOpReturn_lt (outs : List TxOutM) (v : Nat)
    (h : firstNonOpReturn outs = some v) : v < outs.length := by
  unfold firstNonOpReturn at h
  cases hf : (enumM outs).find? (fun p => !p.2.opReturn) with
  | none => rw [hf] at h; simp at h
  | some p =>
    rw [hf] at h
    have hpv : p.1 = v := by
      have h2 : (some p.1 : Option Nat) = some v := h
      injection h2
    have hmem := List.mem_of_find?_eq_some hf
    have := enumFromM_mem_bounds outs 0 p hmem
    omega

theorem applyResidual_conserve (outs : List TxOutM)
    (pointer : Option Nat) (u : List (RuneIdM × Nat)) (als : AllocTable)
    (hlen : als.length = outs.length) (als2 : AllocTable)
    (b1 : List (RuneIdM × Nat)) (tag : Bool)
    (h : applyResidual outs pointer u als = some (als2, b1, tag)) :
    allocSum als2 + msum b1 = allocSum als + msum u
      ∧ als2.length = als.length := by
  unfold applyResidual at h
  split at h
  · -- pointer = Some(p)
    rename_i p
    split at h
    · rename_i hp
      simp only [Option.some.injEq, Prod.mk.injEq] at h
      obtain ⟨h1, h2, h3⟩ := h
      subst h1; subst h2
      have hc := creditLoop_conserve p u als hp
      refine ⟨?_, hc.2⟩
      rw [hc.1]
      simp [msum]
    · exact absurd h (by simp)
  · -- pointer = None
    split at h
    · -- a first non-OP_RETURN output exists
      rename_i v hf
      simp only [Option.some.injEq, Prod.mk.injEq] at h
      obtain ⟨h1, h2, h3⟩ := h
      subst h1; subst h2
      have hv : v < als.length := by
        rw [hlen]; exact firstNonOpReturn_lt outs v hf
      have hc := creditLoop_conserve v u als hv
      refine ⟨?_, hc.2⟩
      rw [hc.1]
      simp [msum]
    · -- no non-OP_RETURN output: residual burned
      simp only [Option.some.injEq, Prod.mk.injEq] at h
      obtain ⟨h1, h2, h3⟩ := h
      subst h1; subst h2
      have hb := burnLoop_conserve u [] false
      rw [hb.1]
      simp [msum]

theorem msum_foldl_ladd (m : List (RuneIdM × Nat)) :
    ∀ bm, msum (m.foldl (fun bm e => ladd bm e.1 e.2) bm)
      = msum bm + msum m := by
  induction m with
  | nil => intro bm; simp [msum]
  | cons e rest ih =>
    intro bm
    simp only [List.foldl_cons]
    rw [ih (ladd bm e.1 e.2), msum_ladd]
    simp only [msum, List.map_cons, List.sum_cons]
    omega

theorem msum_insertSorted (x : RuneIdM × Nat) :
    ∀ l, msum (insertSorted x l) = x.2 + msum l := by
  intro l
  induction l with
  | nil => simp [insertSorted, msum]
  | cons y rest ih =>
    simp only [insertSorted]
    split
    · simp [msum]
    · simp only [msum, List.map_cons, List.sum_cons]
      simp only [msum] at ih
      omega

theorem msum_sortBalances (l : List (RuneIdM × Nat)) :
    msum (sortBalances l) = msum l := by
  induction l with
  | nil => rfl
  | cons x rest ih =>
    simp only [sortBalances]
    rw [msum_insertSorted, ih]
    simp only [msum, List.map_cons, List.sum_cons]

theorem writeOutLoop_conserve (H : Nat) (outs : List TxOutM) :
    ∀ (ps : List (Nat × List (RuneIdM × Nat)))
      (burned : List (RuneIdM × Nat)),
    ((writeOutLoop H outs ps burned).1.map
        (fun w => msum w.balances)).sum
        + msum (writeOutLoop H outs ps burned).2
      = (ps.map (fun p => msum p.2)).sum + msum burned := by
  intro ps
  induction ps with
  | nil => intro burned; simp [writeOutLoop]
  | cons p rest ih =>
    intro burned
    obtain ⟨vout, m⟩ := p
    simp only [writeOutLoop]
    split
    · rename_i hemp
      rw [ih burned]
      have : m = [] := by
        cases m with
        | nil => rfl
        | cons a l => simp at hemp
      subst this
      simp [msum]
    · split
      · rw [ih (m.foldl (fun bm e => ladd bm e.1 e.2) burned),
          msum_foldl_ladd]
        simp only [List.map_cons, List.sum_cons]
        omega
      · simp only [List.map_cons, List.sum_cons, msum_sortBalances]
        have := ih burned
        omega

theorem enumFromM_map_snd {α : Type} (l : List α) :
    ∀ n, (enumFromM n l).map Prod.snd = l := by
  induction l with
  | nil => intro n; simp [enumFromM]
  | cons a rest ih => intro n; simp [enumFromM, ih (n + 1)]

theorem enum_allocSum (als : AllocTable) :
    ((enumM als).map (fun p => msum p.2)).sum = allocSum als := by
  have : (enumM als).map (fun p => msum p.2)
      = ((enumM als).map Prod.snd).map msum := by
    simp [List.map_map]
  rw [this]
  unfold enumM
  rw [enumFromM_map_snd als 0]
  rfl

theorem allocSum_replicate (n : Nat) :
    allocSum (List.replicate n ([] : List (RuneIdM × Nat))) = 0 := by
  induction n with
  | zero => rfl
  | succ n ih => simp [List.replicate, allocSum_cons, msum, ih]

theorem msum_mintPhase (artifact : Option ArtifactM)
    (mintOut : RuneIdM → Option Nat) (inputs : List (RuneIdM × Nat)) :
    msum (mintPhase artifact mintOut inputs)
      = msum inputs + mintContribution artifact mintOut := by
  unfold mintPhase mintContribution
  cases artifact with
  | none => simp
  | some a =>
    cases a with
    | runestone r =>
      obtain ⟨edicts, pointer, mint, etching⟩ := r
      cases mint with
      | none => simp [ArtifactM.mintId]
      | some id =>
        cases hmo : mintOut id with
        | none => simp [ArtifactM.mintId, hmo]
        | some amt => simp [ArtifactM.mintId, hmo, msum_ladd]
    | cenotaph m =>
      cases m with
      | none => simp [ArtifactM.mintId]
      | some id =>
        cases hmo : mintOut id with
        | none => simp [ArtifactM.mintId, hmo]
        | some amt => simp [ArtifactM.mintId, hmo, msum_ladd]

theorem edictPhase_conserve (outs : List TxOutM)
    (artifact : Option ArtifactM) (etched : Option RuneIdM)
    (u1 u2 : List (RuneIdM × Nat)) (als : AllocTable)
    (h : edictPhase outs artifact etched u1 = some (u2, als)) :
    msum u2 + allocSum als
        = msum u1 + premineContribution artifact etched
      ∧ als.length = outs.length := by
  unfold edictPhase premineContribution at *
  cases artifact with
  | none =>
    dsimp only at h ⊢
    simp only [Option.some.injEq, Prod.mk.injEq] at h
    obtain ⟨h1, h2⟩ := h
    subst h1; subst h2
    simp [allocSum_replicate]
  | some a =>
    cases a with
    | cenotaph m =>
      dsimp only at h ⊢
      simp only [Option.some.injEq, Prod.mk.injEq] at h
      obtain ⟨h1, h2⟩ := h
      subst h1; subst h2
      simp [allocSum_replicate]
    | runestone r =>
      cases etched with
      | none =>
        dsimp only at h ⊢
        have hc := processEdicts_conserve outs none r.edicts u1
          (List.replicate outs.length []) (by simp) u2 als h
        rw [allocSum_replicate] at hc
        refine ⟨by omega, by rw [hc.2]; simp⟩
      | some id =>
        dsimp only at h ⊢
        cases het : r.etching with
        | none =>
          rw [het] at h
          dsimp only at h
          exact absurd h (by simp)
        | some et =>
          rw [het] at h
          dsimp only at h
          have hc := processEdicts_conserve outs (some id) r.edicts
            (ladd u1 id (et.premine.getD 0))
            (List.replicate outs.length []) (by simp) u2 als h
          rw [allocSum_replicate, msum_ladd] at hc
          refine ⟨?_, by rw [hc.2]; simp⟩
          dsimp only
          omega

/-- C4: conservation per non-cenotaph transaction: input balances plus
the premine of an accepted etch plus a successful mint amount equal the
amounts written to outputs plus the amounts in the transaction's burn
map, in total over all rune ids. -/
theorem conservation_per_tx (H : Nat) (outs : List TxOutM)
    (artifact : Option ArtifactM) (inputs : List (RuneIdM × Nat))
    (mintOut : RuneIdM → Option Nat) (etched : Option RuneIdM)
    (res : IndexOutcome)
    (hnc : ∀ m, artifact ≠ some (.cenotaph m))
    (h : indexRunes H outs artifact inputs mintOut etched = some res) :
    msum inputs + mintContribution artifact mintOut
        + premineContribution artifact etched
      = (res.written.map (fun w => msum w.balances)).sum
        + msum res.burned := by
  unfold indexRunes at h
  split at h
  · exact absurd h (by simp)
  · rename_i u2 als hed
    have hphase := edictPhase_conserve outs artifact etched
      (mintPhase artifact mintOut inputs) u2 als hed
    have hmint := msum_mintPhase artifact mintOut inputs
    cases artifact with
    | none =>
      dsimp only at h
      split at h
      · exact absurd h (by simp)
      · rename_i als2 b1 tag hres
        have hr := applyResidual_conserve outs none u2 als
          hphase.2 als2 b1 tag hres
        have hw := writeOutLoop_conserve H outs (enumM als2) b1
        rw [enum_allocSum] at hw
        simp only [Option.some.injEq] at h
        subst h
        dsimp only
        omega
    | some a =>
      cases a with
      | cenotaph m => exact absurd rfl (hnc m)
      | runestone r =>
        dsimp only at h
        split at h
        · exact absurd h (by simp)
        · rename_i als2 b1 tag hres
          have hr := applyResidual_conserve outs r.pointer u2 als
            hphase.2 als2 b1 tag hres
          have hw := writeOutLoop_conserve H outs (enumM als2) b1
          rw [enum_allocSum] at hw
          simp only [Option.some.injEq] at h
          subst h
          dsimp only
          omega

/-! ## Per-destination amounts of the even-split edict -/

/-- The amount of rune `id` held by the allocation map of output `out`. -/
def cellVal (als : AllocTable) (out : Nat) (id : RuneIdM) : Nat :=
  (lget (als.getD out []) id).getD 0

theorem getD_set_self (als : AllocTable) :
    ∀ (i : Nat), i < als.length → ∀ v, (als.set i v).getD i [] = v := by
  induction als with
  | nil => intro i h; simp at h
  | cons m rest ih =>
    intro i h v
    cases i with
    | zero => rfl
    | succ i =>
      have h' : i < rest.length := by simpa using h
      exact ih i h' v

theorem getD_set_ne (als : AllocTable) :
    ∀ (i j : Nat), i ≠ j → ∀ v, (als.set i v).getD j [] = als.getD j [] := by
  induction als with
  | nil => intro i j _ v; rfl
  | cons m rest ih =>
    intro i j hne v
    cases i with
    | zero =>
      cases j with
      | zero => exact absurd rfl hne
      | succ j => rfl
    | succ i =>
      cases j with
      | zero => rfl
      | succ j => exact ih i j (by omega) v

theorem allocate_cell_self (bal : Nat) (als : AllocTable) (id : RuneIdM)
    (amt out : Nat) (h : out < als.length) :
    cellVal (allocate bal als id amt out).2 out id
      = cellVal als out id + amt := by
  unfold allocate
  split
  · unfold cellVal bumpAt
    rw [getD_set_self als out h, lget_ladd_self]
    simp
  · rename_i hamt
    have : amt = 0 := by omega
    subst this
    rfl

theorem allocate_cell_ne (bal : Nat) (als : AllocTable) (id : RuneIdM)
    (amt out out' : Nat) (idq : RuneIdM) (hne : out ≠ out') :
    cellVal (allocate bal als id amt out).2 out' idq
      = cellVal als out' idq := by
  unfold allocate
  split
  · unfold cellVal bumpAt
    rw [getD_set_ne als out out' hne]
  · rfl

theorem splitLoop_cell_untouched (id : RuneIdM) (q r : Nat)
    (idq : RuneIdM) :
    ∀ (ps : List (Nat × Nat)) (bal : Nat) (als : AllocTable) (out0 : Nat),
    (∀ p ∈ ps, p.2 ≠ out0) →
    cellVal (splitLoop id q r ps bal als).2 out0 idq
      = cellVal als out0 idq := by
  intro ps
  induction ps with
  | nil => intro bal als out0 _; rfl
  | cons p rest ih =>
    intro bal als out0 hne
    obtain ⟨i, out⟩ := p
    simp only [splitLoop]
    rw [ih _ _ out0 (fun p hp => hne p (List.mem_cons_of_mem _ hp))]
    exact allocate_cell_ne bal als id _ out out0 idq
      (hne (i, out) (by simp))

theorem splitLoop_cell (id : RuneIdM) (q r : Nat) :
    ∀ (ps : List (Nat × Nat)) (bal : Nat) (als : AllocTable)
      (j0 out0 : Nat),
    (j0, out0) ∈ ps → ps.Pairwise (fun a b => a.2 ≠ b.2) →
    out0 < als.length →
    cellVal (splitLoop id q r ps bal als).2 out0 id
      = cellVal als out0 id + (if j0 < r then q + 1 else q) := by
  intro ps
  induction ps with
  | nil => intro bal als j0 out0 hmem; simp at hmem
  | cons p rest ih =>
    intro bal als j0 out0 hmem hpw hout
    obtain ⟨i, out⟩ := p
    rw [List.pairwise_cons] at hpw
    simp only [List.mem_cons] at hmem
    cases hmem with
    | inl hp =>
      injection hp with h1 h2
      subst h1; subst h2
      simp only [splitLoop]
      rw [splitLoop_cell_untouched id q r id rest _ _ out0
        (fun p hp2 => Ne.symm (hpw.1 p hp2))]
      exact allocate_cell_self bal als id _ out0 hout
    | inr hp =>
      have hne : out ≠ out0 := hpw.1 (j0, out0) hp
      simp only [splitLoop]
      rw [ih _ _ j0 out0 hp hpw.2
        (by rw [allocate_length]; exact hout)]
      rw [allocate_cell_ne bal als id _ out out0 id hne]

theorem destFrom_ge (outs : List TxOutM) (n x : Nat)
    (hx : x ∈ (enumFromM n outs).filterMap
      (fun p => if p.2.opReturn then none else some p.1)) : n ≤ x := by
  simp only [List.mem_filterMap] at hx
  obtain ⟨p, hp, hfx⟩ := hx
  have := enumFromM_mem_bounds outs n p hp
  split at hfx
  · exact absurd hfx (by simp)
  · simp only [Option.some.injEq] at hfx
    omega

theorem destFrom_pairwise (outs : List TxOutM) :
    ∀ n, ((enumFromM n outs).filterMap
      (fun p => if p.2.opReturn then none else some p.1)).Pairwise
        (· < ·) := by
  induction outs with
  | nil => intro n; simp [enumFromM]
  | cons a rest ih =>
    intro n
    simp only [enumFromM, List.filterMap_cons]
    by_cases hop : a.opReturn
    · simp only [hop, if_pos rfl]
      exact ih (n + 1)
    · simp only [hop]
      rw [if_neg (by simp)]
      rw [List.pairwise_cons]
      refine ⟨fun x hx => ?_, ih (n + 1)⟩
      have := destFrom_ge rest (n + 1) x hx
      omega

theorem destinations_pairwise (outs : List TxOutM) :
    (destinations outs).Pairwise (· < ·) := by
  unfold destinations enumM
  exact destFrom_pairwise outs 0

theorem enumM_pairwise_snd_ne (l : List Nat)
    (h : l.Pairwise (· < ·)) :
    (enumM l).Pairwise (fun a b => a.2 ≠ b.2) := by
  have hmap : (enumM l).map Prod.snd = l := enumFromM_map_snd l 0
  rw [← hmap, List.pairwise_map] at h
  exact h.imp (fun hab => Nat.ne_of_lt hab)

theorem enumFromM_nat_mem (l : List Nat) :
    ∀ n j, j < l.length → (n + j, l.getD j 0) ∈ enumFromM n l := by
  induction l with
  | nil => intro n j h; simp at h
  | cons a rest ih =>
    intro n j h
    cases j with
    | zero => simp [enumFromM]
    | succ j =>
      have hm := ih (n + 1) j (by simpa using h)
      have heq : n + (j + 1) = (n + 1) + j := by omega
      rw [heq]
      show _ ∈ (n, a) :: enumFromM (n + 1) rest
      exact List.mem_cons_of_mem _ hm

theorem getD_mem_nat (l : List Nat) :
    ∀ j, j < l.length → l.getD j 0 ∈ l := by
  induction l with
  | nil => intro j h; simp at h
  | cons a rest ih =>
    intro j h
    cases j with
    | zero => simp
    | succ j =>
      have := ih j (by simpa using h)
      exact List.mem_cons_of_mem _ this

/-- C6: an edict with the all-eligible sentinel output and amount 0
splits the unallocated balance `b` evenly over the non-OP_RETURN
outputs `D`: the `j`-th eligible output (ascending vout order) receives
`b / |D|` plus one extra unit when `j < b % |D|`. -/
theorem split_edict_even_division (outs : List TxOutM)
    (etched : Option RuneIdM) (u : List (RuneIdM × Nat))
    (als : AllocTable) (id : RuneIdM) (b : Nat)
    (hid : id ≠ ⟨0, 0⟩) (hget : lget u id = some b)
    (hlen : als.length = outs.length)
    (hne : (destinations outs).isEmpty = false)
    (u' : List (RuneIdM × Nat)) (als' : AllocTable)
    (h : processEdict outs etched (u, als) ⟨id, 0, outs.length⟩
      = some (u', als')) :
    ∀ j, j < (destinations outs).length →
      cellVal als' ((destinations outs).getD j 0) id
        = cellVal als ((destinations outs).getD j 0) id
          + b / (destinations outs).length
          + (if j < b % (destinations outs).length then 1 else 0) := by
  intro j hj
  unfold processEdict at h
  dsimp only at h
  rw [if_neg (Nat.lt_irrefl _), if_neg hid] at h
  dsimp only at h
  rw [hget] at h
  dsimp only at h
  rw [if_pos rfl, hne] at h
  rw [if_neg (by simp), if_pos rfl] at h
  simp only [Option.some.injEq, Prod.mk.injEq] at h
  obtain ⟨h1, h2⟩ := h
  subst h1; subst h2
  have hmem : (j, (destinations outs).getD j 0)
      ∈ enumM (destinations outs) := by
    have := enumFromM_nat_mem (destinations outs) 0 j hj
    simpa using this
  have hpw := enumM_pairwise_snd_ne (destinations outs)
    (destinations_pairwise outs)
  have hout : (destinations outs).getD j 0 < als.length := by
    rw [hlen]
    exact destinations_lt outs _ (getD_mem_nat (destinations outs) j hj)
  have hc := splitLoop_cell id (b / (destinations outs).length)
    (b % (destinations outs).length) (enumM (destinations outs)) b als
    j ((destinations outs).getD j 0) hmem hpw hout
  by_cases hjr : j < b % (destinations outs).length
  · rw [if_pos hjr] at hc ⊢
    omega
  · rw [if_neg hjr] at hc ⊢
    omega

theorem conservation_per_tx_witness :
    msum [(RuneIdM.mk 1 0, 100)]
        + mintContribution
            (some (.runestone ⟨[⟨⟨1, 0⟩, 30, 1⟩, ⟨⟨1, 0⟩, 0, 2⟩],
              none, none, none⟩)) (fun _ => none)
        + premineContribution
            (some (.runestone ⟨[⟨⟨1, 0⟩, 30, 1⟩, ⟨⟨1, 0⟩, 0, 2⟩],
              none, none, none⟩)) none
      = ([TxRecord.mk 1 100 0 [(RuneIdM.mk 1 0, 30)],
          TxRecord.mk 2 100 0 [(RuneIdM.mk 1 0, 70)]].map
            (fun w => msum w.balances)).sum
        + msum ([] : List (RuneIdM × Nat)) :=
  conservation_per_tx 100 [⟨true, 0⟩, ⟨false, 5⟩, ⟨false, 7⟩]
    (some (.runestone ⟨[⟨⟨1, 0⟩, 30, 1⟩, ⟨⟨1, 0⟩, 0, 2⟩],
      none, none, none⟩))
    [(RuneIdM.mk 1 0, 100)] (fun _ => none) none
    (IndexOutcome.mk
      [TxRecord.mk 1 100 0 [(RuneIdM.mk 1 0, 30)],
        TxRecord.mk 2 100 0 [(RuneIdM.mk 1 0, 70)]]
      [] false false)
    (fun m hcon => by simp at hcon)
    (by decide)

theorem split_edict_even_division_witness :
    (cellVal [[(⟨1, 0⟩, 4)], [(⟨1, 0⟩, 3)], [(⟨1, 0⟩, 3)]]
        ((destinations [⟨false, 1⟩, ⟨false, 1⟩, ⟨false, 1⟩]).getD 0 0)
        ⟨1, 0⟩
      = cellVal (List.replicate 3 [])
          ((destinations [⟨false, 1⟩, ⟨false, 1⟩, ⟨false, 1⟩]).getD 0 0)
          ⟨1, 0⟩
        + 10 / (destinations [⟨false, 1⟩, ⟨false, 1⟩, ⟨false, 1⟩]).length
        + (if 0 < 10 %
            (destinations [⟨false, 1⟩, ⟨false, 1⟩, ⟨false, 1⟩]).length
          then 1 else 0))
    ∧ (cellVal [[(⟨1, 0⟩, 4)], [(⟨1, 0⟩, 3)], [(⟨1, 0⟩, 3)]]
        ((destinations [⟨false, 1⟩, ⟨false, 1⟩, ⟨false, 1⟩]).getD 1 0)
        ⟨1, 0⟩
      = cellVal (List.replicate 3 [])
          ((destinations [⟨false, 1⟩, ⟨false, 1⟩, ⟨false, 1⟩]).getD 1 0)
          ⟨1, 0⟩
        + 10 / (destinations [⟨false, 1⟩, ⟨false, 1⟩, ⟨false, 1⟩]).length
        + (if 1 < 10 %
            (destinations [⟨false, 1⟩, ⟨false, 1⟩, ⟨false, 1⟩]).length
          then 1 else 0)) :=
  ⟨split_edict_even_division [⟨false, 1⟩, ⟨false, 1⟩, ⟨false, 1⟩] none
      [(⟨1, 0⟩, 10)] (List.replicate 3 []) ⟨1, 0⟩ 10
      (by decide) (by decide) (by decide) (by decide)
      [(⟨1, 0⟩, 0)] [[(⟨1, 0⟩, 4)], [(⟨1, 0⟩, 3)], [(⟨1, 0⟩, 3)]]
      (by decide) 0 (by decide),
    split_edict_even_division [⟨false, 1⟩, ⟨false, 1⟩, ⟨false, 1⟩] none
      [(⟨1, 0⟩, 10)] (List.replicate 3 []) ⟨1, 0⟩ 10
      (by decide) (by decide) (by decide) (by decide)
      [(⟨1, 0⟩, 0)] [[(⟨1, 0⟩, 4)], [(⟨1, 0⟩, 3)], [(⟨1, 0⟩, 3)]]
      (by decide) 1 (by decide)⟩

/-- C5 counterexample: a runestone with `pointer = Some(5)` over a
single-output transaction.  The claim says the residual falls back to
the first non-OP_RETURN output and the operation completes; the code's
`assert!(pointer < allocated.len())` aborts instead, so `index_runes`
reaches no outcome at all. -/
theorem residual_invalid_pointer_aborts :
    ¬ ∃ res, indexRunes 100 [⟨false, 7⟩]
        (some (.runestone ⟨[], some 5, none, none⟩))
        [(⟨1, 0⟩, 30)] (fun _ => none) none = some res := by
  intro h
  obtain ⟨res, hres⟩ := h
  rw [show indexRunes 100 [⟨false, 7⟩]
      (some (.runestone ⟨[], some 5, none, none⟩))
      [(⟨1, 0⟩, 30)] (fun _ => none) none = none from rfl] at hres
  exact Option.noConfusion hres

/-- C5 (amended): residual assignment for a non-cenotaph artifact:
a pointer which is a valid output index receives every positive
residual balance; a pointer outside the outputs makes the operation
abort (`assert!` panic) instead of falling back; an absent pointer
falls back to the first non-OP_RETURN output; and with no such output
the residual is burned and the transaction is tagged `burn` exactly
when some residual balance is positive. -/
theorem residual_assignment_cases (outs : List TxOutM)
    (pointer : Option Nat) (u : List (RuneIdM × Nat)) (als : AllocTable)
    (hlen : als.length = outs.length) :
    (∀ p, pointer = some p → als.length ≤ p →
      applyResidual outs pointer u als = none)
    ∧ (∀ p, pointer = some p → p < als.length →
        applyResidual outs pointer u als
            = some (creditLoop p u als, [], false)
          ∧ allocSum (creditLoop p u als) = allocSum als + msum u)
    ∧ (∀ v, pointer = none → firstNonOpReturn outs = some v →
        applyResidual outs pointer u als
            = some (creditLoop v u als, [], false)
          ∧ allocSum (creditLoop v u als) = allocSum als + msum u)
    ∧ (pointer = none → firstNonOpReturn outs = none →
        applyResidual outs pointer u als
            = some (als, (burnLoop u ([], false)).1,
                u.any (fun e => decide (0 < e.2)))
          ∧ msum (burnLoop u ([], false)).1 = msum u) := by
  refine ⟨?_, ?_, ?_, ?_⟩
  · intro p hp hge
    subst hp
    unfold applyResidual
    dsimp only
    rw [if_neg (by omega)]
  · intro p hp hlt
    subst hp
    refine ⟨?_, (creditLoop_conserve p u als hlt).1⟩
    unfold applyResidual
    dsimp only
    rw [if_pos hlt]
  · intro v hp hf
    subst hp
    have hv : v < als.length := by
      rw [hlen]; exact firstNonOpReturn_lt outs v hf
    refine ⟨?_, (creditLoop_conserve v u als hv).1⟩
    unfold applyResidual
    dsimp only
    rw [hf]
  · intro hp hf
    subst hp
    have hb := burnLoop_conserve u [] false
    refine ⟨?_, ?_⟩
    · unfold applyResidual
      dsimp only
      rw [hf, hb.2]
      simp
    · rw [hb.1]
      simp [msum]

theorem residual_assignment_cases_witness :
    applyResidual [⟨true, 0⟩, ⟨false, 5⟩] (some 1) [(⟨1, 0⟩, 9)] [[], []]
        = some (creditLoop 1 [(⟨1, 0⟩, 9)] [[], []], [], false)
      ∧ allocSum (creditLoop 1 [(⟨1, 0⟩, 9)] [[], []])
          = allocSum [[], []] + msum [(RuneIdM.mk 1 0, 9)] :=
  (residual_assignment_cases [⟨true, 0⟩, ⟨false, 5⟩] (some 1)
    [(⟨1, 0⟩, 9)] [[], []] (by decide)).2.1 1 rfl (by decide)

/-- C9: the stored balance record is `(height, 0, balances)` only: it
does not depend on the output's satoshi value (two runs differing only
in that value write identical records), and for a single-output
transaction receiving 30 units at height 100 the record written is
exactly `(vout 0, confirmed 100, spent 0, [(1:0, 30)])` — no satoshi
value and no script bytes, contradicting the declared five-field
`RuneBalanceEntry`. -/
theorem balance_entry_omits_sats_and_script :
    indexRunes 100 [⟨false, 7⟩]
        (some (.runestone ⟨[], none, none, none⟩))
        [(⟨1, 0⟩, 30)] (fun _ => none) none
      = indexRunes 100 [⟨false, 9999⟩]
          (some (.runestone ⟨[], none, none, none⟩))
          [(⟨1, 0⟩, 30)] (fun _ => none) none
    ∧ indexRunes 100 [⟨false, 7⟩]
        (some (.runestone ⟨[], none, none, none⟩))
        [(⟨1, 0⟩, 30)] (fun _ => none) none
      = some ⟨[⟨0, 100, 0, [(⟨1, 0⟩, 30)]⟩], [], false, false⟩ := by
  exact ⟨by decide, by decide⟩

/-! ## Input spending (`updater.rs`, `RuneUpdater::unallocated`) -/

/-- A Bitcoin outpoint `(txid, vout)`; the txid is a `Nat` stand-in for
the 32-byte hash. -/
structure OutPointM where
  txid : Nat
  vout : Nat
deriving DecidableEq, Repr

/-- A stored `OUTPOINT_TO_RUNE_BALANCES` value as `updater.rs` reads
and writes it: `entry.0` the confirmed height, `entry.1` the spent
height, `entry.2` the balance buffer (embedded as its decoded
`(RuneId, amount)` sequence). -/
structure BalDbEntry where
  confirmed : Nat
  spent : Nat
  payload : List (RuneIdM × Nat)
deriving DecidableEq, Repr

/-- One iteration of the input loop of `RuneUpdater::unallocated`: when
the spent outpoint has a stored entry, fold its decoded balances into
the unallocated map, then write the entry back with `entry.1 = height`
(`entry.1 = self.height; outpoint_to_rune_balances_put(...)`). -/
def spendStep (H : Nat)
    (st : List (RuneIdM × Nat) × List (OutPointM × BalDbEntry))
    (op : OutPointM) :
    List (RuneIdM × Nat) × List (OutPointM × BalDbEntry) :=
  match lget st.2 op with
  | some e =>
    (e.payload.foldl (fun m p => ladd m p.1 p.2) st.1,
      lput st.2 op ⟨e.confirmed, H, e.payload⟩)
  | none => st

/-- `RuneUpdater::unallocated`: accumulate the unallocated balances of
all spent outpoints and mark each stored entry spent at height `H`. -/
def unallocatedPhase (H : Nat) (inputs : List OutPointM)
    (store : List (OutPointM × BalDbEntry)) :
    List (RuneIdM × Nat) × List (OutPointM × BalDbEntry) :=
  inputs.foldl (spendStep H) ([], store)

theorem spendStep_other (H : Nat)
    (st : List (RuneIdM × Nat) × List (OutPointM × BalDbEntry))
    (op op' : OutPointM) (hne : op' ≠ op) :
    lget (spendStep H st op').2 op = lget st.2 op := by
  unfold spendStep
  cases hget : lget st.2 op' with
  | none => rfl
  | some e => exact lget_lput_ne st.2 op' op _ hne

theorem spendStep_upd (H : Nat)
    (st : List (RuneIdM × Nat) × List (OutPointM × BalDbEntry))
    (op : OutPointM) (e : BalDbEntry) (h : lget st.2 op = some e) :
    lget (spendStep H st op).2 op = some ⟨e.confirmed, H, e.payload⟩ := by
  unfold spendStep
  rw [h]
  exact lget_lput_self st.2 op _

theorem foldl_spendStep_keep (H : Nat) (op : OutPointM) (c : Nat)
    (pl : List (RuneIdM × Nat)) :
    ∀ (inputs : List OutPointM)
      (st : List (RuneIdM × Nat) × List (OutPointM × BalDbEntry)),
    lget st.2 op = some ⟨c, H, pl⟩ →
    lget (inputs.foldl (spendStep H) st).2 op = some ⟨c, H, pl⟩ := by
  intro inputs
  induction inputs with
  | nil => intro st h; exact h
  | cons op' rest ih =>
    intro st h
    simp only [List.foldl_cons]
    apply ih
    by_cases hne : op' = op
    · subst hne
      rw [spendStep_upd H st op' ⟨c, H, pl⟩ h]
    · rw [spendStep_other H st op op' hne, h]

theorem foldl_spendStep_mem (H : Nat) (op : OutPointM) (e : BalDbEntry) :
    ∀ (inputs : List OutPointM)
      (st : List (RuneIdM × Nat) × List (OutPointM × BalDbEntry)),
    op ∈ inputs →
    (lget st.2 op = some e
      ∨ lget st.2 op = some ⟨e.confirmed, H, e.payload⟩) →
    lget (inputs.foldl (spendStep H) st).2 op
      = some ⟨e.confirmed, H, e.payload⟩ := by
  intro inputs
  induction inputs with
  | nil => intro st hmem; simp at hmem
  | cons op' rest ih =>
    intro st hmem hP
    simp only [List.foldl_cons]
    by_cases hne : op' = op
    · subst hne
      have hstep : lget (spendStep H st op').2 op'
          = some ⟨e.confirmed, H, e.payload⟩ := by
        cases hP with
        | inl h => rw [spendStep_upd H st op' e h]
        | inr h =>
          rw [spendStep_upd H st op' ⟨e.confirmed, H, e.payload⟩ h]
      exact foldl_spendStep_keep H op' e.confirmed e.payload rest _ hstep
    · have hmem' : op ∈ rest := by
        cases List.mem_cons.mp hmem with
        | inl h => exact absurd h.symm hne
        | inr h => exact h
      apply ih _ hmem'
      rw [spendStep_other H st op op' hne]
      exact hP

/-- C10: spending an outpoint rewrites its stored balance entry with
only the spent-height field changed to the current block height: the
confirmed height and the balance payload are preserved unchanged. -/
theorem spend_preserves_entry (H : Nat) (inputs : List OutPointM)
    (store : List (OutPointM × BalDbEntry)) (op : OutPointM)
    (e : BalDbEntry) (hop : op ∈ inputs)
    (he : lget store op = some e) :
    lget (unallocatedPhase H inputs store).2 op
      = some ⟨e.confirmed, H, e.payload⟩ :=
  foldl_spendStep_mem H op e inputs ([], store) hop (Or.inl he)

theorem spend_preserves_entry_witness :
    lget (unallocatedPhase 120 [⟨9, 1⟩]
        [(⟨9, 1⟩, ⟨77, 0, [(⟨1, 0⟩, 50)]⟩)]).2 ⟨9, 1⟩
      = some ⟨77, 120, [(⟨1, 0⟩, 50)]⟩ :=
  spend_preserves_entry 120 [⟨9, 1⟩]
    [(⟨9, 1⟩, ⟨77, 0, [(⟨1, 0⟩, 50)]⟩)] ⟨9, 1⟩
    ⟨77, 0, [(⟨1, 0⟩, 50)]⟩ (by decide) (by decide)

/-! ## Genesis bootstrap (`main.rs` lines 64–94) -/

/-- The slice of global state the mainnet genesis bootstrap touches:
the rune-entry table, the name-to-id table, the global
`STATISTIC_TO_VALUE[Runes]` value and the per-height
`HEIGHT_TO_STATISTIC_COUNT[Runes]` deltas. -/
structure GenesisState where
  entries : List (RuneIdM × RuneEntryM)
  runeToId : List (Nat × RuneIdM)
  statRunes : Option Nat
  runesDeltas : List (Nat × Nat)
deriving DecidableEq, Repr

/-- The UNCOMMON•GOODS entry created by the bootstrap. -/
def uncommonGoods : RuneEntryM where
  block := 1
  burned := 0
  divisibility := 0
  etching := 0
  mints := 0
  number := 0
  premine := 0
  rune := 2055900680524219742
  spacers := 128
  symbol := some '⧉'
  terms := some
    { amount := some 1
      cap := some U128MAX
      heightL := some 840000
      heightU := some 1050000
      offsetL := none
      offsetU := none }
  timestamp := 0
  turbo := true

/-- `main.rs` lines 64–94: if no entry exists for rune id `(1, 0)`,
write the `RUNE_TO_RUNE_ID` mapping, increment the per-height Runes
delta at height 1 (`height_to_statistic_count_inc`), and write the
UNCOMMON•GOODS entry.  `STATISTIC_TO_VALUE[Runes]` is not written. -/
def genesisBootstrap (g : GenesisState) : GenesisState :=
  match lget g.entries ⟨1, 0⟩ with
  | some _ => g
  | none =>
    { entries := lput g.entries ⟨1, 0⟩ uncommonGoods
      runeToId := lput g.runeToId 2055900680524219742 ⟨1, 0⟩
      statRunes := g.statRunes
      runesDeltas := ladd g.runesDeltas 1 1 }

/-- `height_to_statistic_count_sum_to_height` for the Runes statistic:
sum the per-height deltas at heights `≤ to_height`. -/
def runesDeltaSum (deltas : List (Nat × Nat)) (toH : Nat) : Nat :=
  ((deltas.filter (fun p => decide (p.1 ≤ toH))).map Prod.snd).sum

/-- C1: right after the mainnet genesis bootstrap on an empty store,
one `RuneEntry` row exists and the per-height Runes deltas sum to 1,
but `STATISTIC_TO_VALUE[Runes]` was never written and still reads 0:
the claimed equality of the global Runes value with the entry count
(and with the delta sum) fails at the very point the claim singles
out. -/
theorem genesis_runes_statistic_mismatch :
    (genesisBootstrap ⟨[], [], none, []⟩).entries.length = 1
    ∧ runesDeltaSum (genesisBootstrap ⟨[], [], none, []⟩).runesDeltas 1 = 1
    ∧ (genesisBootstrap ⟨[], [], none, []⟩).statRunes = none
    ∧ (genesisBootstrap ⟨[], [], none, []⟩).statRunes.getD 0
        ≠ (genesisBootstrap ⟨[], [], none, []⟩).entries.length := by
  decide

/-! ## Block-end burn accrual (`updater.rs`, `RuneUpdater::update`) -/

/-- The state `RuneUpdater::update` touches at block end. -/
structure BlockEndState where
  heightBurned : List ((RuneIdM × Nat) × Nat)
  idBurned : List (RuneIdM × Nat)
  entries : List (RuneIdM × RuneEntryM)
deriving DecidableEq, Repr

/-- `db/mod.rs` `rune_id_to_burned_inc`: read the cumulative counter,
add **1** (`unwrap_or_default() + 1`), store and return it. -/
def runeIdToBurnedInc (m : List (RuneIdM × Nat)) (id : RuneIdM) :
    Nat × List (RuneIdM × Nat) :=
  ((lget m id).getD 0 + 1, lput m id ((lget m id).getD 0 + 1))

/-- One `(rune_id, burned)` iteration of `RuneUpdater::update`: store
the block's burned amount under `(id, height)`
(`rune_id_height_to_burned_put`), bump the cumulative counter with
`rune_id_to_burned_inc`, and store the returned counter into
`entry.burned`.  `none` embeds the `unwrap` on a missing entry. -/
def updateStep (H : Nat) (s : Option BlockEndState) (p : RuneIdM × Nat) :
    Option BlockEndState :=
  match s with
  | none => none
  | some st =>
    match lget st.entries p.1 with
    | none => none
    | some entry =>
      some
        { heightBurned := lput st.heightBurned (p.1, H) p.2
          idBurned := (runeIdToBurnedInc st.idBurned p.1).2
          entries := lput st.entries p.1
            { entry with burned := (runeIdToBurnedInc st.idBurned p.1).1 } }

/-- `RuneUpdater::update`: the block-end loop over `self.burned`. -/
def updateEnd (H : Nat) (burnedMap : List (RuneIdM × Nat))
    (st : BlockEndState) : Option BlockEndState :=
  burnedMap.foldl (updateStep H) (some st)

/-- C2: with a block burn of 5 units of rune `(1, 0)` at height 7 and
all counters at zero, the per-height row receives the amount (5), but
`RUNE_ID_TO_BURNED` is incremented by 1 — not by the amount — and that
1 is what lands in `RuneEntry.burned`. -/
theorem burn_accrual_increments_by_one :
    ((updateEnd 7 [(⟨1, 0⟩, 5)]
        ⟨[], [], [(⟨1, 0⟩, uncommonGoods)]⟩).map
      (fun st => (lget st.heightBurned (⟨1, 0⟩, 7),
        lget st.idBurned ⟨1, 0⟩,
        (lget st.entries ⟨1, 0⟩).map (fun e => e.burned))))
      = some (some 5, some 1, some 1)
    ∧ (1 : Nat) ≠ 5 := by
  decide

/-! ## Reorg rewind delta deletion (`db/mod.rs`, `reorg_to_height`) -/

/-- Stage-1 deletion of the `RUNE_ID_HEIGHT_TO_MINTS` /
`RUNE_ID_HEIGHT_TO_BURNED` rows in `reorg_to_height`: the column family
is iterated from the end (descending `(rune id, height)` key order) and
the loop reads `u64::from_be_bytes(k[0..8])` — the first eight key
bytes, which are the rune id's `block`, not the height suffix —
deleting while that value is `≥ height` and breaking at the first row
below it.  `rows` is the column family in descending key order; the
result is what survives. -/
def reorgDeleteDeltaRows (R : Nat) :
    List ((RuneIdM × Nat) × Nat) → List ((RuneIdM × Nat) × Nat)
  | [] => []
  | ((id, h), v) :: rest =>
    if R ≤ id.block then reorgDeleteDeltaRows R rest
    else ((id, h), v) :: rest

/-- `rune_id_height_to_burned_sum_to_height` (and its mints twin,
`db/mod.rs` lines 264 and 308): prefix-iterate the rows of one rune
(the key is 12 bytes of rune id followed by the 4-byte big-endian
height), then read the "height" to compare against `to_height` as
`u32::from_be_bytes([k[0], k[1], k[2], k[3]])` — the top four bytes of
the rune id's 8-byte big-endian `block`, i.e. `block >> 32`, not the
height suffix at `k[12..16]`. -/
def sumDeltasToHeight (rows : List ((RuneIdM × Nat) × Nat))
    (id : RuneIdM) (toH : Nat) : Nat :=
  ((rows.filter (fun row =>
      decide (row.1.1 = id ∧ row.1.1.block / 2 ^ 32 ≤ toH))).map
    Prod.snd).sum

/-- The recompute the claim describes: sum the per-height deltas of one
rune restricted to true heights `≤ to_height`. -/
def sumDeltasToHeightSpec (rows : List ((RuneIdM × Nat) × Nat))
    (id : RuneIdM) (toH : Nat) : Nat :=
  ((rows.filter (fun row => decide (row.1.1 = id ∧ row.1.2 ≤ toH))).map
    Prod.snd).sum

/-- C3: rewinding to height 7 should delete the delta row stored at
height 8, but the stage-1 loop compares the rune id's block (5) against
the rewind height, so the row `((5:1), 8) ↦ 3` survives — even though
its height component `8 ≥ 7`.  The recompute stage then also misreads
the key: its filter compares `block >> 32 = 0 ≤ 7`, so it includes the
stale height-8 delta and returns 3 where the claimed
`Σ deltas at h ≤ 7` is 0. -/
theorem reorg_delete_misses_height_row :
    reorgDeleteDeltaRows 7 [((⟨5, 1⟩, 8), 3)] = [((⟨5, 1⟩, 8), 3)]
    ∧ (7 : Nat) ≤ 8
    ∧ sumDeltasToHeight [((⟨5, 1⟩, 8), 3)] ⟨5, 1⟩ 7 = 3
    ∧ sumDeltasToHeightSpec [((⟨5, 1⟩, 8), 3)] ⟨5, 1⟩ 7 = 0
    ∧ (3 : Nat) ≠ 0 := by
  decide

/-! ## Reorg detection walk (`main.rs` lines 112–165) -/

/-- `updater.rs`: `pub const REORG_DEPTH: u32 = 10`. -/
def REORG_DEPTH : Nat := 10

inductive WalkResult where
  | proceed
  | resume (toHeight : Nat)
  | noHeader (resetTo : Nat)
deriving DecidableEq, Repr

/-- The backward walk of the reorg guard after the first check failed
(`main.rs` lines 127–163, iterations with `first_check == false`):
while `prev > first_rune_height`, a missing stored header resets to
`max(latest_indexed, frh)` (the `fallback` parameter is
`latest_indexed_height().unwrap_or(frh)`), a node hash equal to the
stored header's hash resumes at `max(frh, prev + 1)`, otherwise the
walk steps to `max(frh, prev - 1)`; since the guard gives
`frh < prev`, that is `prev - 1` and the recursion is structural.
Returns the outcome and the number of heights compared. -/
def walkBack (stored : Nat → Option Nat) (nodeHash : Nat → Nat)
    (frh fallback : Nat) : Nat → WalkResult × Nat
  | 0 => (.proceed, 0)
  | prev + 1 =>
    if frh < prev + 1 then
      match stored (prev + 1) with
      | none => (.noHeader (max fallback frh), 0)
      | some sh =>
        if nodeHash (prev + 1) = sh then
          (.resume (max frh (prev + 1 + 1)), 1)
        else
          ((walkBack stored nodeHash frh fallback prev).1,
            (walkBack stored nodeHash frh fallback prev).2 + 1)
    else (.proceed, 0)

/-- The reorg guard for the block fetched at height `h` (`main.rs`
lines 124–163): compare the stored header hash at `h - 1` against the
fetched block's `prev_blockhash`; on match proceed, else walk backwards
from `h - 2` (the source steps to `max(frh, h - 2)`; when
`h - 2 ≤ frh` both forms break out of the loop and proceed). -/
def reorgCheck (stored : Nat → Option Nat) (nodeHash : Nat → Nat)
    (frh fallback : Nat) (prevBlockhash : Nat) (h : Nat) :
    WalkResult × Nat :=
  if frh < h - 1 then
    match stored (h - 1) with
    | none => (.noHeader (max fallback frh), 0)
    | some sh =>
      if sh = prevBlockhash then (.proceed, 0)
      else walkBack stored nodeHash frh fallback (h - 1 - 1)
  else (.proceed, 0)

/-- C8 counterexample: with stored headers at every height (hash =
height), node hashes agreeing only up to height 100, first rune height
90 and a fetched block at height 116 whose prev-hash mismatches, the
walk compares 15 heights (114 down to 100) before resuming at 101 —
more than `REORG_DEPTH = 10`, so the walk is not bounded by
`REORG_DEPTH`. -/
theorem reorg_walk_exceeds_reorg_depth :
    reorgCheck (fun hh => some hh)
        (fun hh => if hh ≤ 100 then hh else hh + 1000) 90 0 999 116
      = (.resume 101, 15)
    ∧ ¬ ((reorgCheck (fun hh => some hh)
        (fun hh => if hh ≤ 100 then hh else hh + 1000) 90 0 999 116).2
          ≤ REORG_DEPTH) := by
  decide

theorem walkBack_resume (stored : Nat → Option Nat)
    (nodeHash : Nat → Nat) (frh fallback m sm : Nat)
    (hfrh : frh < m) (hsm : stored m = some sm)
    (hnm : nodeHash m = sm) :
    ∀ start, m ≤ start →
    (∀ k, m < k → k ≤ start → ∃ s, stored k = some s ∧ nodeHash k ≠ s) →
    walkBack stored nodeHash frh fallback start
      = (.resume (m + 1), start - m + 1) := by
  intro start
  induction start with
  | zero =>
    intro hle _
    omega
  | succ p ih =>
    intro hle hmid
    by_cases hm : m = p + 1
    · subst hm
      simp only [walkBack]
      rw [if_pos hfrh, hsm]
      dsimp only
      rw [if_pos hnm]
      have hmax : max frh (p + 1 + 1) = p + 1 + 1 := by omega
      rw [hmax]
      have harith : p + 1 - (p + 1) + 1 = 1 := by omega
      rw [harith]
    · have hlt : m ≤ p := by omega
      obtain ⟨s, hs, hns⟩ := hmid (p + 1) (by omega) (Nat.le_refl _)
      simp only [walkBack]
      rw [if_pos (by omega), hs]
      dsimp only
      rw [if_neg hns,
        ih hlt (fun k hk1 hk2 => hmid k hk1 (by omega))]
      have harith : p - m + 1 + 1 = p + 1 - m + 1 := by omega
      rw [harith]

theorem walkBack_proceed (stored : Nat → Option Nat)
    (nodeHash : Nat → Nat) (frh fallback : Nat) :
    ∀ start,
    (∀ k, frh < k → k ≤ start → ∃ s, stored k = some s ∧ nodeHash k ≠ s) →
    walkBack stored nodeHash frh fallback start
      = (.proceed, start - frh) := by
  intro start
  induction start with
  | zero =>
    intro _
    have harith : 0 - frh = 0 := Nat.zero_sub frh
    rw [harith]
    rfl
  | succ p ih =>
    intro hmid
    by_cases hf : frh < p + 1
    · obtain ⟨s, hs, hns⟩ := hmid (p + 1) hf (Nat.le_refl _)
      simp only [walkBack]
      rw [if_pos hf, hs]
      dsimp only
      rw [if_neg hns,
        ih (fun k hk1 hk2 => hmid k hk1 (by omega))]
      have harith : p - frh + 1 = p + 1 - frh := by omega
      rw [harith]
    · simp only [walkBack]
      rw [if_neg hf]
      have harith : p + 1 - frh = 0 := by omega
      rw [harith]

/-- C8 (amended): when the fetched block's prev-hash does not match the
stored header at `h - 1`, the guard walks backwards from `h - 2`
comparing stored headers with node-reported hashes; the walk is bounded
below by `first_rune_height` (not by `REORG_DEPTH`).  When the first
matching height scanning downward is `m > first_rune_height`, the
guard sets the resume height to `m + 1` after comparing the `h - 1 - m`
heights `h - 2, …, m`; when every height down to
`first_rune_height + 1` mismatches, the loop breaks after comparing
`h - 2 - first_rune_height` heights and the fetched block is processed
at the original height (`proceed`). -/
theorem reorg_detection_amended (stored : Nat → Option Nat)
    (nodeHash : Nat → Nat) (frh fallback prevHash h s0 : Nat)
    (hfh : frh < h - 1)
    (hs0 : stored (h - 1) = some s0) (hne : s0 ≠ prevHash) :
    (∀ m sm, frh < m → m ≤ h - 2 →
      (∀ k, m < k → k ≤ h - 2 → ∃ s, stored k = some s ∧ nodeHash k ≠ s) →
      stored m = some sm → nodeHash m = sm →
      reorgCheck stored nodeHash frh fallback prevHash h
        = (.resume (m + 1), h - 1 - m))
    ∧ ((∀ k, frh < k → k ≤ h - 2 →
        ∃ s, stored k = some s ∧ nodeHash k ≠ s) →
      reorgCheck stored nodeHash frh fallback prevHash h
        = (.proceed, h - 2 - frh)) := by
  constructor
  · intro m sm hfrh hstart hmid hsm hnm
    unfold reorgCheck
    rw [if_pos hfh, hs0]
    dsimp only
    rw [if_neg hne]
    have h12 : h - 1 - 1 = h - 2 := by omega
    rw [h12, walkBack_resume stored nodeHash frh fallback m sm hfrh hsm
      hnm (h - 2) hstart hmid]
    have harith : h - 2 - m + 1 = h - 1 - m := by omega
    rw [harith]
  · intro hmid
    unfold reorgCheck
    rw [if_pos hfh, hs0]
    dsimp only
    rw [if_neg hne]
    have h12 : h - 1 - 1 = h - 2 := by omega
    rw [h12, walkBack_proceed stored nodeHash frh fallback (h - 2) hmid]

theorem reorg_detection_amended_witness :
    reorgCheck (fun hh => some hh)
        (fun hh => if hh ≤ 100 then hh else hh + 1000) 90 0 999 116
      = (.resume 101, 15)
    ∧ reorgCheck (fun hh => some hh) (fun hh => hh + 1000) 90 0 999 116
      = (.proceed, 24) :=
  ⟨(reorg_detection_amended (fun hh => some hh)
      (fun hh => if hh ≤ 100 then hh else hh + 1000) 90 0 999 116 115
      (by decide) (by decide) (by decide)).1 100 100
    (by decide) (by decide)
    (fun k hk1 hk2 =>
      ⟨k, rfl, by
        show (if k ≤ 100 then k else k + 1000) ≠ k
        rw [if_neg (by omega)]
        omega⟩)
    (by decide) (by decide),
  (reorg_detection_amended (fun hh => some hh) (fun hh => hh + 1000)
      90 0 999 116 115 (by decide) (by decide) (by decide)).2
    (fun k hk1 hk2 => ⟨k, rfl, by omega⟩)⟩
